import Mathlib

set_option maxRecDepth 200000

/-!
Verification development for the character-extraction pipeline of the
sinaiticusfont repository (scripts/improved_extraction.py,
scripts/fix_character_extraction.py, scripts/pipeline.py).

Modelling conventions:
* A raster image is a row-major grid of 8-bit intensities, `List (List Nat)`,
  ink = 0, background = 255, exactly as the binarized images the scripts
  operate on.  All embedded functions start from the binary mask; the
  OpenCV preprocessing steps (adaptive threshold, CLAHE, morphology) are
  external, shape-preserving library calls performed before the code under
  specification runs.
* Python float arithmetic is embedded as exact rational arithmetic over `ℚ`.
  To keep every definition computable by the kernel we route the four
  field operations through `mkRat`-based helpers (`qadd`, `qsub`, `qmul`,
  `qdiv`, `qabs`); the lemmas `qadd_eq` … `qabs_eq` prove they agree with
  the ordinary `ℚ` operations, and all abstract reasoning rewrites through
  them first.
* `scipy.ndimage.gaussian_filter1d` has irrational kernel weights, so the
  smoothing step is a function parameter (called `S` below); the theorems
  that need anything about it take the relevant property (for example that
  smoothing an all-zero signal yields an all-zero signal) as a hypothesis,
  which holds for the real Gaussian filter by linearity.
* `cv2.connectedComponentsWithStats` (8-connectivity) is embedded
  concretely: `components` partitions the nonzero pixels of a grid into
  8-connected groups and `compStats` recomputes the x/y/width/height/area
  statistics the scripts read from it.
* `cv2.Canny` is modelled by `cannyEdges`, which counts pixels whose value
  differs from one of their 8 neighbours.  The claims only use that a
  uniform image has no edge pixels and that the count is nonnegative,
  both of which hold for the real Canny operator.
-/

/-! ## Kernel-computable rational arithmetic -/

def qadd (a b : ℚ) : ℚ := mkRat (a.num * b.den + b.num * a.den) (a.den * b.den)

def qsub (a b : ℚ) : ℚ := mkRat (a.num * b.den - b.num * a.den) (a.den * b.den)

def qmul (a b : ℚ) : ℚ := mkRat (a.num * b.num) (a.den * b.den)

def qdiv (a b : ℚ) : ℚ := Rat.divInt (a.num * b.den) (a.den * b.num)

def qabs (a : ℚ) : ℚ := mkRat a.num.natAbs a.den

theorem qden_ne (a : ℚ) : ((a.den : ℚ)) ≠ 0 :=
  Nat.cast_ne_zero.mpr a.den_nz

theorem qnum_eq (a : ℚ) : (a.num : ℚ) = a * a.den :=
  (div_eq_iff (qden_ne a)).mp (Rat.num_div_den a)

theorem qadd_eq (a b : ℚ) : qadd a b = a + b := by
  rw [qadd, Rat.mkRat_eq_div]
  push_cast
  rw [div_eq_iff (mul_ne_zero (qden_ne a) (qden_ne b)), qnum_eq a, qnum_eq b]
  ring

theorem qsub_eq (a b : ℚ) : qsub a b = a - b := by
  rw [qsub, Rat.mkRat_eq_div]
  push_cast
  rw [div_eq_iff (mul_ne_zero (qden_ne a) (qden_ne b)), qnum_eq a, qnum_eq b]
  ring

theorem qmul_eq (a b : ℚ) : qmul a b = a * b := by
  rw [qmul, Rat.mkRat_eq_div]
  push_cast
  rw [div_eq_iff (mul_ne_zero (qden_ne a) (qden_ne b)), qnum_eq a, qnum_eq b]
  ring

theorem qdiv_eq (a b : ℚ) : qdiv a b = a / b := by
  rw [qdiv, Rat.divInt_eq_div]
  push_cast
  rcases eq_or_ne b 0 with hb | hb
  · simp [hb]
  · have hbn : ((b.num : ℚ)) ≠ 0 := by
      simpa using (Rat.num_ne_zero).mpr hb
    rw [div_eq_div_iff (mul_ne_zero (qden_ne a) hbn) hb, qnum_eq a, qnum_eq b]
    ring

theorem qabs_eq (a : ℚ) : qabs a = |a| := by
  rw [qabs, Rat.mkRat_eq_div]
  conv_rhs => rw [← Rat.num_div_den a]
  rw [abs_div, abs_of_nonneg (by positivity : (0:ℚ) ≤ (a.den : ℚ))]
  congr 1
  push_cast [Int.cast_natAbs]
  rfl

/-! ## Images -/

/-- Row-major 8-bit raster: each inner list is one row of pixel values. -/
abbrev Image := List (List ℕ)

/-- Number of rows (numpy shape[0]). -/
def imgH (g : Image) : ℕ := g.length

/-- Number of columns (numpy shape[1] of a rectangular array). -/
def imgW (g : Image) : ℕ := (g.headD []).length

/-- Total pixel count (numpy .size for a rectangular array). -/
def imgSize (g : Image) : ℕ := (g.map List.length).sum

/-- The grid is a well-formed h-by-w raster (numpy arrays are rectangular). -/
def IsRect (g : Image) (w h : ℕ) : Prop :=
  g.length = h ∧ ∀ row ∈ g, row.length = w

instance (g : Image) (w h : ℕ) : Decidable (IsRect g w h) := by
  unfold IsRect; infer_instance

/-- cv2.bitwise_not on an 8-bit image (255 - v for binarized pixels). -/
def bnot (v : ℕ) : ℕ := 255 - v

/-- Pixelwise map over a grid. -/
def mapGrid (f : ℕ → ℕ) (g : Image) : Image := g.map (List.map f)

/-- Count of pixels equal to `v` (numpy `np.sum(img == v)`). -/
def countVal (v : ℕ) (g : Image) : ℕ := (g.map (List.count v)).sum

/-- Count of pixels strictly below `t` (numpy `np.sum(img < t)`). -/
def countBelow (t : ℕ) (g : Image) : ℕ :=
  (g.map (fun row => (row.filter (· < t)).length)).sum

/-- Sum of all pixel values. -/
def sumPix (g : Image) : ℕ := (g.map List.sum).sum

/-- Horizontal ink projection of improved_extraction (`np.sum(binary_img == 0, axis=1)`). -/
def hProjI (g : Image) : List ℕ := g.map (List.count 0)

/-- Horizontal projection of fix_character_extraction
(`np.sum(255 - binary_img, axis=1) / 255`). -/
def hProjF (g : Image) : List ℚ :=
  g.map (fun row => qdiv (((row.map bnot).sum : ℕ) : ℚ) 255)

/-- Vertical ink projection (`np.sum(char_img == 0, axis=0)`): for each of
the `imgW g` columns, the number of rows whose pixel in that column is 0. -/
def vProj (g : Image) : List ℕ :=
  (List.range (imgW g)).map (fun c => (g.filterMap (fun row => row.get? c)).count 0)

/-- Crop rows a..b (python `img[a:b, :]`). -/
def cropRows (g : Image) (a b : ℕ) : Image := (g.drop a).take (b - a)

/-- Crop a rectangle (python `img[y:y+h, x:x+w]`). -/
def cropRect (g : Image) (x y w h : ℕ) : Image :=
  ((g.drop y).take h).map (fun row => (row.drop x).take w)

/-- cv2.copyMakeBorder with a constant border of `pad` pixels of value `v`. -/
def padImage (pad v : ℕ) (g : Image) : Image :=
  let w := imgW g + 2 * pad
  List.replicate pad (List.replicate w v) ++
    g.map (fun row => List.replicate pad v ++ row ++ List.replicate pad v) ++
    List.replicate pad (List.replicate w v)

/-! ## Connected components (cv2.connectedComponentsWithStats, connectivity 8)

`fgPixels` lists the nonzero pixels in row-major order, `components`
groups them into 8-connected sets, and `compStats` recomputes the
per-label statistics (leftmost x, topmost y, width, height, area). -/

/-- Nonzero pixels of one row, as (row, col) pairs starting at column c0. -/
def fgRow (r : ℕ) : ℕ → List ℕ → List (ℕ × ℕ)
  | _, [] => []
  | c0, v :: vs => if v ≠ 0 then (r, c0) :: fgRow r (c0 + 1) vs else fgRow r (c0 + 1) vs

/-- Nonzero pixels of the grid from row r0 down, row-major. -/
def fgFrom : ℕ → Image → List (ℕ × ℕ)
  | _, [] => []
  | r0, row :: rest => fgRow r0 0 row ++ fgFrom (r0 + 1) rest

/-- All nonzero (foreground) pixels of the grid, row-major. -/
def fgPixels (g : Image) : List (ℕ × ℕ) := fgFrom 0 g

/-- 8-neighbourhood adjacency of two pixel coordinates. -/
def adj8 (p q : ℕ × ℕ) : Bool :=
  (p.1 - q.1 ≤ 1) && (q.1 - p.1 ≤ 1) && (p.2 - q.2 ≤ 1) && (q.2 - p.2 ≤ 1)

/-- Insert one pixel, merging every existing group it touches. -/
def addPix (comps : List (List (ℕ × ℕ))) (p : ℕ × ℕ) : List (List (ℕ × ℕ)) :=
  let t := comps.partition (fun c => c.any (fun q => adj8 p q))
  (p :: t.1.flatten) :: t.2

/-- The 8-connected components of the nonzero pixels of `g`. -/
def components (g : Image) : List (List (ℕ × ℕ)) := (fgPixels g).foldl addPix []

/-- cv2 `num_labels`: one background label plus one label per component. -/
def numLabels (g : Image) : ℕ := (components g).length + 1

/-- Per-component statistics, as produced by connectedComponentsWithStats. -/
structure CCStats where
  x : ℕ
  y : ℕ
  w : ℕ
  h : ℕ
  area : ℕ
deriving DecidableEq, Repr

def foldlMin (f : ℕ × ℕ → ℕ) (p : ℕ × ℕ) (ps : List (ℕ × ℕ)) : ℕ :=
  ps.foldl (fun a q => min a (f q)) (f p)

def foldlMax (f : ℕ × ℕ → ℕ) (p : ℕ × ℕ) (ps : List (ℕ × ℕ)) : ℕ :=
  ps.foldl (fun a q => max a (f q)) (f p)

def compStats : List (ℕ × ℕ) → CCStats
  | [] => ⟨0, 0, 0, 0, 0⟩
  | p :: ps =>
    let minR := foldlMin Prod.fst p ps
    let maxR := foldlMax Prod.fst p ps
    let minC := foldlMin Prod.snd p ps
    let maxC := foldlMax Prod.snd p ps
    ⟨minC, minR, maxC - minC + 1, maxR - minR + 1, (p :: ps).length⟩

/-- Pixels of the component painted 255 on a h-by-w black canvas
(python `(labels == i).astype(np.uint8) * 255`). -/
def labelMask (h w : ℕ) (comp : List (ℕ × ℕ)) : Image :=
  (List.range h).map (fun r =>
    (List.range w).map (fun c => if comp.contains (r, c) then 255 else 0))

/-- cv2.bitwise_and of two images of the same shape. -/
def andImage (a b : Image) : Image :=
  a.zipWith (fun ra rb => ra.zipWith Nat.land rb) b

/-! ## Morphological erosion and the edge model -/

/-- Pixel lookup with an out-of-range default. -/
def pixD (g : Image) (r c d : ℕ) : ℕ := (g.getD r []).getD c d

/-- Pixel lookup returning none outside the raster. -/
def pixOpt (g : Image) (r c : ℕ) : Option ℕ := (g.get? r).bind (fun row => row.get? c)

/-- cv2.erode with the 3-by-3 elliptical structuring element (a cross), one
iteration.  Out-of-range neighbours take the morphological border value
(the maximum, so the border never erodes), matching the cv2 default. -/
def erodeCross (g : Image) : Image :=
  (List.range (imgH g)).map (fun r =>
    (List.range (imgW g)).map (fun c =>
      min (pixD g r c 255)
        (min (min (pixD g (r - 1) c 255) (pixD g (r + 1) c 255))
             (min (pixD g r (c - 1) 255) (pixD g r (c + 1) 255)))))

/-- Model of cv2.Canny(img, 50, 150): the count of pixels whose value differs
from the value of one of their 8 neighbours.  The development only relies on
properties this model shares with the real operator: a uniform image has no
edge pixels, and the count never exceeds the pixel count. -/
def isEdgePix (g : Image) (r c : ℕ) : Bool :=
  match pixOpt g r c with
  | none => false
  | some v =>
    [(r - 1, c - 1), (r - 1, c), (r - 1, c + 1), (r, c - 1),
     (r, c + 1), (r + 1, c - 1), (r + 1, c), (r + 1, c + 1)].any
      (fun q => match pixOpt g q.1 q.2 with
        | some w => w ≠ v
        | none => false)

def cannyEdges (g : Image) : ℕ :=
  ((List.range (imgH g)).map (fun r =>
    ((List.range (imgW g)).filter (fun c => isEdgePix g r c)).length)).sum

/-! ## The line-scan loop shared by all three detectors

Each script walks the smoothed projection with an `in_line` flag, opening a
run on the first value above the threshold and emitting `(line_start, i)` at
the first value back at or below it, provided the run is at least the
minimum line height.  A run still open at the end of the signal is never
emitted. -/

def scanGo (thr : ℚ) (minH : ℕ) : ℕ → Bool → ℕ → List ℚ → List (ℕ × ℕ)
  | _, _, _, [] => []
  | i, false, s, v :: rest =>
    if thr < v then scanGo thr minH (i + 1) true i rest
    else scanGo thr minH (i + 1) false s rest
  | i, true, s, v :: rest =>
    if thr < v then scanGo thr minH (i + 1) true s rest
    else if minH ≤ i - s then (s, i) :: scanGo thr minH (i + 1) false s rest
    else scanGo thr minH (i + 1) false s rest

def scanRuns (thr : ℚ) (minH : ℕ) (sig : List ℚ) : List (ℕ × ℕ) :=
  scanGo thr minH 0 false 0 sig

/-! ## Sorting (python list.sort) and np.percentile -/

def insertLe {α : Type} (le : α → α → Bool) (x : α) : List α → List α
  | [] => [x]
  | y :: ys => if le y x then y :: insertLe le x ys else x :: y :: ys

def sortLe {α : Type} (le : α → α → Bool) : List α → List α
  | [] => []
  | x :: xs => insertLe le x (sortLe le xs)

/-- Floor of a nonnegative rational, as a natural number. -/
def qfloorNat (a : ℚ) : ℕ := a.num.toNat / a.den

/-- np.percentile with the default linear interpolation; none on an empty
input, where numpy raises. -/
def percentile (q : ℚ) (xs : List ℚ) : Option ℚ :=
  match sortLe (fun a b => decide (a ≤ b)) xs with
  | [] => none
  | x :: s =>
    let srt := x :: s
    let rank := qmul (qdiv q 100) ((srt.length - 1 : ℕ) : ℚ)
    let i := qfloorNat rank
    let lo := srt.getD i x
    let hi := srt.getD (i + 1) lo
    let frac := qsub rank ((i : ℕ) : ℚ)
    some (qadd lo (qmul frac (qsub hi lo)))

/-! ## Line detectors -/

/-- improved_extraction.detect_text_regions.  `S` is the Gaussian smoothing
step (`gaussian_filter1d(..., sigma=2)`).  If the binary mask has no ink the
nonzero selection is empty and `np.percentile` raises: modelled as `none`. -/
def detect_text_regions (S : List ℚ → List ℚ) (g : Image) : Option (List (ℕ × ℕ)) :=
  let hp := hProjI g
  let hs := S (hp.map (fun n => ((n : ℕ) : ℚ)))
  let nz := hs.filter (fun v => decide (0 < v))
  match percentile 20 nz with
  | none => none
  | some thr =>
    some ((scanRuns thr 20 hs).map (fun p => (p.1 - 5, min hp.length (p.2 + 5))))

/-- fix_character_extraction.find_text_lines: identical scan with sigma 3,
percentile 25, minimum height 15, and an explicit empty-selection guard that
returns no lines instead of raising. -/
def find_text_lines (S : List ℚ → List ℚ) (g : Image) : List (ℕ × ℕ) :=
  let hp := hProjF g
  let hs := S hp
  let nz := hs.filter (fun v => decide (0 < v))
  match percentile 25 nz with
  | none => []
  | some thr =>
    (scanRuns thr 15 hs).map (fun p => (p.1 - 5, min hp.length (p.2 + 5)))

/-- pipeline.detect_lines: unsmoothed projection, threshold at 10 percent of
the maximum, minimum height 11 (`i - line_start > 10`), no padding. -/
def detect_lines (g : Image) : List (ℕ × ℕ) :=
  let hp := (hProjI g).map (fun n => ((n : ℕ) : ℚ))
  let thr := qmul (hp.foldl max 0) (mkRat 1 10)
  scanRuns thr 11 hp

/-! ## Omega detection and the touching-character splitter -/

/-- improved_extraction.detect_omega_pattern. -/
def detect_omega_pattern (img : Image) (w h : ℕ) : Bool :=
  if qdiv (w : ℚ) (h : ℚ) < mkRat 13 10 then false
  else
    let er := erodeCross (mapGrid bnot img)
    let n := numLabels er
    decide (2 ≤ n - 1 ∧ n - 1 ≤ 3)

/-- One segmented connected component, as the per-line dictionaries of
improved_extraction.  The dictionaries produced by the splitter carry no
`area` or `is_omega` key; `area` is never read afterwards (stored as 0) and
`is_omega` is read back with default False. -/
structure CharData where
  x : ℕ
  y : ℕ
  w : ℕ
  h : ℕ
  area : ℕ
  image : Image
  isOmega : Bool
deriving DecidableEq, Repr

def minD : List ℕ → ℕ
  | [] => 0
  | x :: xs => xs.foldl min x

def maxD : List ℕ → ℕ
  | [] => 0
  | x :: xs => xs.foldl max x

def argminGo : ℕ → ℕ → ℕ → List ℕ → ℕ
  | bi, _, _, [] => bi
  | bi, bv, i, v :: vs => if v < bv then argminGo i v (i + 1) vs else argminGo bi bv (i + 1) vs

/-- np.argmin: index of the first minimum. -/
def argminIdx : List ℕ → ℕ
  | [] => 0
  | v :: vs => argminGo 0 v 1 vs

/-- improved_extraction.split_touching_characters on one component record. -/
def splitOne (c : CharData) : List CharData :=
  if mkRat 9 5 < qdiv (c.w : ℚ) (c.h : ℚ) ∧ c.isOmega = false then
    let vp := vProj c.image
    let ms := c.w / 3
    let me2 := 2 * c.w / 3
    if ms < me2 then
      let mid := (vp.drop ms).take (me2 - ms)
      if 0 < mid.length ∧ ((minD mid : ℕ) : ℚ) < qmul ((maxD mid : ℕ) : ℚ) (mkRat 3 10) then
        let sp := ms + argminIdx mid
        let left := c.image.map (fun row => row.take sp)
        let right := c.image.map (fun row => row.drop sp)
        if 5 < imgW left ∧ 5 < imgW right then
          [⟨c.x, c.y, sp, c.h, 0, left, false⟩,
           ⟨c.x + sp, c.y, c.w - sp, c.h, 0, right, false⟩]
        else [c]
      else [c]
    else [c]
  else [c]

def split_touching_characters (cs : List CharData) : List CharData :=
  (cs.map splitOne).flatten

/-! ## Quality scorers -/

/-- improved_extraction.calculate_quality_score: weights 0.3 density,
0.3 edges, 0.2 connectivity, 0.2 size plausibility. -/
def calculate_quality_score (img : Image) : ℚ :=
  let size : ℚ := ((imgSize img : ℕ) : ℚ)
  let inkR := qdiv ((countVal 0 img : ℕ) : ℚ) size
  let density := qsub 1 (qdiv (qabs (qsub inkR (mkRat 3 20))) (mkRat 3 20))
  let edgeR := qdiv ((cannyEdges img : ℕ) : ℚ) size
  let edgeScore := min (qdiv edgeR (mkRat 1 20)) 1
  let nl := numLabels (mapGrid bnot img)
  let conn := qdiv 1 ((max (nl - 1) 1 : ℕ) : ℚ)
  let sizeScore : ℚ :=
    if 20 < imgH img ∧ imgH img < 120 ∧ 15 < imgW img ∧ imgW img < 100 then 1 else mkRat 1 2
  qadd (qadd (qmul density (mkRat 3 10)) (qmul edgeScore (mkRat 3 10)))
       (qadd (qmul conn (mkRat 1 5)) (qmul sizeScore (mkRat 1 5)))

/-- fix_character_extraction.calculate_quality: weights 0.4 density,
0.3 connectivity, 0.3 edges; the density term is clamped at 0. -/
def calculate_quality (img : Image) : ℚ :=
  let total : ℚ := ((imgSize img : ℕ) : ℚ)
  let inkR := qdiv ((countBelow 127 img : ℕ) : ℚ) total
  let density : ℚ :=
    if mkRat 1 10 ≤ inkR ∧ inkR ≤ mkRat 2 5 then 1
    else max 0 (qsub 1 (qmul (qabs (qsub inkR (mkRat 1 4))) 2))
  let nl := numLabels (mapGrid bnot img)
  let conn := qdiv 1 ((max (nl - 1) 1 : ℕ) : ℚ)
  let edgeR := qdiv ((cannyEdges img : ℕ) : ℚ) total
  let edgeScore := min (qmul edgeR 20) 1
  qadd (qadd (qmul density (mkRat 2 5)) (qmul conn (mkRat 3 10))) (qmul edgeScore (mkRat 3 10))

/-! ## Character segmentation (improved_extraction.segment_characters_advanced) -/

/-- One output character record of improved_extraction, as written to
metadata.json: `bbox = {x, y, width, height}` is in source-page pixel
coordinates (`y = y1 + component y`). -/
structure Glyph where
  id : ℕ
  line : ℕ
  image : Image
  x : ℕ
  y : ℕ
  width : ℕ
  height : ℕ
  quality : ℚ
  isOmega : Bool
deriving DecidableEq, Repr

/-- The per-line component extraction of segment_characters_advanced:
connected components of the inverted line crop, size and aspect gates,
masked crop (`char_clean`), omega flag. -/
def lineChars (lineImg : Image) : List CharData :=
  (components (mapGrid bnot lineImg)).filterMap (fun comp =>
    let s := compStats comp
    if s.w < 5 ∨ s.h < 10 then none
    else if 150 < s.w ∨ 150 < s.h then none
    else if s.area < 50 then none
    else
      let aspect := qdiv (s.w : ℚ) (s.h : ℚ)
      if 3 < aspect ∨ aspect < mkRat 1 5 then none
      else
        let charImg := cropRect lineImg s.x s.y s.w s.h
        let maskCrop := cropRect (labelMask (imgH lineImg) (imgW lineImg) comp) s.x s.y s.w s.h
        let charClean := andImage charImg maskCrop
        some ⟨s.x, s.y, s.w, s.h, s.area, charClean, detect_omega_pattern charClean s.w s.h⟩)

/-- One line of segment_characters_advanced: sort left-to-right, split
touching characters, pad by 8 white pixels, attach page coordinates and the
quality score. -/
def segLine (lineImg : Image) (y1 lineIdx startId : ℕ) : List Glyph :=
  let processed := split_touching_characters (sortLe (fun a b => decide (a.x ≤ b.x)) (lineChars lineImg))
  processed.enum.map (fun p =>
    let c := p.2
    let padded := padImage 8 255 c.image
    ⟨startId + p.1, lineIdx, padded, c.x, y1 + c.y, c.w, c.h,
      calculate_quality_score padded, c.isOmega⟩)

def segGo : Image → List (ℕ × ℕ) → ℕ → ℕ → List Glyph
  | _, [], _, _ => []
  | g, (y1, y2) :: rest, lineIdx, cid =>
    let gs := segLine (cropRows g y1 y2) y1 lineIdx cid
    gs ++ segGo g rest (lineIdx + 1) (cid + gs.length)

/-- segment_characters_advanced: all lines, then the `quality_score > 0.3`
filter that selects the characters handed to the persister. -/
def segment_characters_advanced (g : Image) (lines : List (ℕ × ℕ)) : List Glyph :=
  (segGo g lines 0 0).filter (fun gl => decide (mkRat 3 10 < gl.quality))

/-- The improved_extraction page pipeline from the binary mask on: line
detection then segmentation; none when line detection raises. -/
def improvedPage (S : List ℚ → List ℚ) (g : Image) : Option (List Glyph) :=
  (detect_text_regions S g).map (fun lines => segment_characters_advanced g lines)

/-- save_improved_characters sorts by quality descending and then writes
every record (PNG plus metadata entry); no further filtering happens. -/
def save_improved_characters (gs : List Glyph) : List Glyph :=
  sortLe (fun a b => decide (b.quality ≤ a.quality)) gs

/-! ## The fix_character_extraction chain -/

/-- One character record of fix_character_extraction (extract_line_characters
output, enriched with id, line and global_y by extract_characters). -/
structure CharF where
  x : ℕ
  y : ℕ
  w : ℕ
  h : ℕ
  area : ℕ
  image : Image
  quality : ℚ
  id : ℕ
  line : ℕ
  globalY : ℕ
deriving DecidableEq, Repr

/-- fix_character_extraction.extract_line_characters: components of the
inverted line crop, size gates (8/8, 200/200, area 40, aspect 0.15..4),
polarity fix by mean, 5-pixel white padding, quality score, sort by x. -/
def extract_line_characters (lineImg : Image) : List CharF :=
  let raw := (components (mapGrid bnot lineImg)).filterMap (fun comp =>
    let s := compStats comp
    if s.w < 8 ∨ s.h < 8 then none
    else if 200 < s.w ∨ 200 < s.h then none
    else if s.area < 40 then none
    else
      let aspect := qdiv (s.w : ℚ) (s.h : ℚ)
      if 4 < aspect ∨ aspect < mkRat 3 20 then none
      else
        let charImg := cropRect lineImg s.x s.y s.w s.h
        let fixedImg :=
          if qdiv ((sumPix charImg : ℕ) : ℚ) ((imgSize charImg : ℕ) : ℚ) < 127
          then mapGrid bnot charImg else charImg
        let padded := padImage 5 255 fixedImg
        some ⟨s.x, s.y, s.w, s.h, s.area, padded, calculate_quality padded, 0, 0, 0⟩)
  sortLe (fun a b => decide (a.x ≤ b.x)) raw

def extGo : Image → List (ℕ × ℕ) → ℕ → ℕ → List CharF
  | _, [], _, _ => []
  | g, (y1, y2) :: rest, lineIdx, cid =>
    let cs := extract_line_characters (cropRows g y1 y2)
    cs.enum.map (fun p =>
        { p.2 with id := cid + p.1, line := lineIdx, globalY := y1 + p.2.y }) ++
      extGo g rest (lineIdx + 1) (cid + cs.length)

/-- fix_character_extraction.extract_characters from the binary mask on. -/
def extract_characters (S : List ℚ → List ℚ) (g : Image) : List CharF :=
  extGo g (find_text_lines S g) 0 0

/-- One metadata.json record of fix_character_extraction.save_characters:
bbox x is the component x, bbox y is global_y (line offset plus component
y). -/
structure MetaRec where
  id : ℕ
  line : ℕ
  quality : ℚ
  bbx : ℕ
  bby : ℕ
  bbw : ℕ
  bbh : ℕ
deriving DecidableEq, Repr

def mkMetaF (c : CharF) : MetaRec := ⟨c.id, c.line, c.quality, c.x, c.globalY, c.w, c.h⟩

/-- The save loop of save_characters: skip records with quality below 0.3,
stop after writing 2000 records. -/
def saveGo : List CharF → ℕ → List MetaRec
  | [], _ => []
  | c :: rest, cnt =>
    if c.quality < mkRat 3 10 then saveGo rest cnt
    else
      let m := mkMetaF c
      if 2000 ≤ cnt + 1 then [m] else m :: saveGo rest (cnt + 1)

/-- fix_character_extraction.save_characters: sort by quality descending,
then the save loop. -/
def save_characters (cs : List CharF) : List MetaRec :=
  saveGo (sortLe (fun a b => decide (b.quality ≤ a.quality)) cs) 0

/-- The fix_character_extraction page pipeline from the binary mask on. -/
def fixPage (S : List ℚ → List ℚ) (g : Image) : List MetaRec :=
  save_characters (extract_characters S g)

/-! ## Auxiliary definitions for the statements, and concrete test rasters -/

/-- The middle-third window of the vertical projection examined by the
splitter (`v_proj[w//3 : 2*w//3]`). -/
def midOf (c : CharData) : List ℕ :=
  ((vProj c.image).drop (c.w / 3)).take (2 * c.w / 3 - c.w / 3)

/-- An all-background (blank) h-by-w raster. -/
def blankImage (h w : ℕ) : Image := List.replicate h (List.replicate w 255)

/-- An all-ink h-by-w raster. -/
def blackImage (h w : ℕ) : Image := List.replicate h (List.replicate w 0)

/-- A 50-row, 20-column binary mask with one 20-row text band (ink columns
6..13) and twelve faint 2-pixel rows that keep the percentile thresholds
below the projection value of the band. -/
def testImg : Image :=
  List.replicate 5 (List.replicate 20 255) ++
    List.replicate 20 (List.replicate 6 255 ++ List.replicate 8 0 ++ List.replicate 6 255) ++
    List.replicate 5 (List.replicate 20 255) ++
    List.replicate 12 (List.replicate 2 255 ++ List.replicate 2 0 ++ List.replicate 16 255) ++
    List.replicate 8 (List.replicate 20 255)

/-- A 12-by-24 bitmap of two 10-pixel-wide ink blocks separated by a
4-pixel gap: width/height = 2 with a clear valley in the middle third. -/
def splitImg : Image :=
  List.replicate 12 (List.replicate 10 0 ++ List.replicate 4 255 ++ List.replicate 10 0)

def splitChar : CharData := ⟨0, 0, 24, 12, 240, splitImg, false⟩

/-- A 14-by-21 bitmap of two 9-pixel-wide ink blocks (width/height 1.5)
that stay two separate blobs after one erosion. -/
def omegaImg : Image :=
  List.replicate 14
    (List.replicate 1 255 ++ List.replicate 9 0 ++ List.replicate 2 255 ++
      List.replicate 9 0)

def omegaChar : CharData := ⟨0, 0, 21, 14, 252, omegaImg, true⟩

/-- A character record whose quality score sits exactly on the 0.3 cutoff;
`calculate_quality` really attains this value (on an all-ink 10-by-10
bitmap the density and edge terms vanish and connectivity is maximal). -/
def boundaryChar : CharF := ⟨0, 0, 10, 10, 100, blackImage 10 10, mkRat 3 10, 0, 0, 0⟩

/-! ## General lemmas: sorting membership, scan-loop structure -/

theorem mem_insertLe {α : Type} (le : α → α → Bool) (x : α) (l : List α) (a : α) :
    a ∈ insertLe le x l ↔ a = x ∨ a ∈ l := by
  induction l with
  | nil => simp [insertLe]
  | cons y ys ih =>
    by_cases h : le y x = true
    · simp only [insertLe, if_pos h, List.mem_cons, ih]
      try tauto
    · simp only [insertLe, if_neg h, List.mem_cons]
      try tauto

theorem mem_sortLe {α : Type} (le : α → α → Bool) (l : List α) (a : α) :
    a ∈ sortLe le l ↔ a ∈ l := by
  induction l with
  | nil => simp [sortLe]
  | cons x xs ih => simp [sortLe, mem_insertLe, ih]

/-- Every run emitted by the scan loop starts at or after the current start
(when inside a run) or the current index (when outside), and ends strictly
after it starts. -/
theorem scanGo_lb (thr : ℚ) (minH : ℕ) :
    ∀ (sig : List ℚ) (i s : ℕ) (inL : Bool), (inL = true → s < i) →
      ∀ p ∈ scanGo thr minH i inL s sig, (cond inL s i) ≤ p.1 ∧ p.1 < p.2 := by
  intro sig
  induction sig with
  | nil => intro i s inL _ p hp; simp [scanGo] at hp
  | cons v rest ih =>
    intro i s inL hsl p hp
    cases inL with
    | false =>
      simp only [scanGo] at hp
      by_cases hv : thr < v
      · rw [if_pos hv] at hp
        have := ih (i + 1) i true (fun _ => Nat.lt_succ_self i) p hp
        simpa using ⟨Nat.le_trans (Nat.le_refl i) this.1, this.2⟩
      · rw [if_neg hv] at hp
        have := ih (i + 1) s false (by simp) p hp
        exact ⟨Nat.le_trans (Nat.le_succ i) this.1, this.2⟩
    | true =>
      have hsi : s < i := hsl rfl
      simp only [scanGo] at hp
      by_cases hv : thr < v
      · rw [if_pos hv] at hp
        have := ih (i + 1) s true (fun _ => Nat.lt_succ_of_lt hsi) p hp
        simpa using this
      · rw [if_neg hv] at hp
        by_cases hm : minH ≤ i - s
        · rw [if_pos hm] at hp
          rcases List.mem_cons.mp hp with h | h
          · subst h; exact ⟨Nat.le_refl s, hsi⟩
          · have := ih (i + 1) s false (by simp) p h
            exact ⟨Nat.le_trans (Nat.le_of_lt (Nat.lt_succ_of_lt hsi)) this.1, this.2⟩
        · rw [if_neg hm] at hp
          have := ih (i + 1) s false (by simp) p hp
          exact ⟨Nat.le_trans (Nat.le_of_lt (Nat.lt_succ_of_lt hsi)) this.1, this.2⟩

/-- Runs are emitted in order: each run ends strictly before the next begins. -/
theorem scanGo_pairwise (thr : ℚ) (minH : ℕ) :
    ∀ (sig : List ℚ) (i s : ℕ) (inL : Bool), (inL = true → s < i) →
      List.Pairwise (fun p q : ℕ × ℕ => p.2 < q.1) (scanGo thr minH i inL s sig) := by
  intro sig
  induction sig with
  | nil => intro i s inL _; simp [scanGo]
  | cons v rest ih =>
    intro i s inL hsl
    cases inL with
    | false =>
      simp only [scanGo]
      by_cases hv : thr < v
      · rw [if_pos hv]; exact ih (i + 1) i true (fun _ => Nat.lt_succ_self i)
      · rw [if_neg hv]; exact ih (i + 1) s false (by simp)
    | true =>
      have hsi : s < i := hsl rfl
      simp only [scanGo]
      by_cases hv : thr < v
      · rw [if_pos hv]; exact ih (i + 1) s true (fun _ => Nat.lt_succ_of_lt hsi)
      · rw [if_neg hv]
        by_cases hm : minH ≤ i - s
        · rw [if_pos hm]
          refine List.pairwise_cons.mpr ⟨?_, ih (i + 1) s false (by simp)⟩
          intro q hq
          have := scanGo_lb thr minH rest (i + 1) s false (by simp) q hq
          simpa using Nat.lt_of_lt_of_le (Nat.lt_succ_self i) this.1
        · rw [if_neg hm]; exact ih (i + 1) s false (by simp)

/-- A signal that stays above the threshold to its end produces no run at
all: the loop enters (or stays in) a run and never reaches the closing
branch that appends a line. -/
theorem scanGo_above_nil (thr : ℚ) (minH : ℕ) :
    ∀ (suf : List ℚ), (∀ v ∈ suf, thr < v) →
      ∀ (i s : ℕ) (inL : Bool), scanGo thr minH i inL s suf = [] := by
  intro suf
  induction suf with
  | nil => intro _ i s inL; cases inL <;> simp [scanGo]
  | cons v rest ih =>
    intro h i s inL
    have hv : thr < v := h v (List.mem_cons_self v rest)
    cases inL with
    | false => simp only [scanGo, if_pos hv]; exact ih (fun w hw => h w (List.mem_cons_of_mem v hw)) _ _ _
    | true => simp only [scanGo, if_pos hv]; exact ih (fun w hw => h w (List.mem_cons_of_mem v hw)) _ _ _

/-- Appending above-threshold values to a signal changes no emitted run. -/
theorem scanGo_append_above (thr : ℚ) (minH : ℕ) (suf : List ℚ) (hsuf : ∀ v ∈ suf, thr < v) :
    ∀ (sig : List ℚ) (i s : ℕ) (inL : Bool),
      scanGo thr minH i inL s (sig ++ suf) = scanGo thr minH i inL s sig := by
  intro sig
  induction sig with
  | nil =>
    intro i s inL
    rw [List.nil_append]
    cases inL <;> simp [scanGo_above_nil thr minH suf hsuf, scanGo]
  | cons v rest ih =>
    intro i s inL
    rw [List.cons_append]
    cases inL with
    | false =>
      simp only [scanGo]
      by_cases hv : thr < v
      · rw [if_pos hv, if_pos hv, ih]
      · rw [if_neg hv, if_neg hv, ih]
    | true =>
      simp only [scanGo]
      by_cases hv : thr < v
      · rw [if_pos hv, if_pos hv, ih]
      · rw [if_neg hv, if_neg hv]
        by_cases hm : minH ≤ i - s
        · rw [if_pos hm, if_pos hm, ih]
        · rw [if_neg hm, if_neg hm, ih]

/-- The padded line list any of the detectors produces is sorted by start
row, because raw runs are emitted in strictly increasing order. -/
theorem padded_sorted (thr : ℚ) (minH L : ℕ) (sig : List ℚ) :
    List.Sorted (· ≤ ·)
      (((scanRuns thr minH sig).map (fun p => (p.1 - 5, min L (p.2 + 5)))).map Prod.fst) := by
  rw [List.map_map, List.Sorted, List.pairwise_map]
  have hpw := scanGo_pairwise thr minH sig 0 0 false (by simp)
  refine hpw.imp_of_mem ?_
  intro a b ha hb hab
  have h1 := scanGo_lb thr minH sig 0 0 false (by simp) a ha
  simp only [Function.comp]
  omega

/-- Claim C8: the list of text-line intervals returned by the line
detectors is ordered so that the start row of each line is at most the
start row of the next line: lines are emitted in top-to-bottom scan order.  The
first part covers improved_extraction.detect_text_regions (when it does
not raise), the second fix_character_extraction.find_text_lines. -/
theorem C8_lines_sorted_by_start :
    (∀ (S : List ℚ → List ℚ) (g : Image) (lines : List (ℕ × ℕ)),
        detect_text_regions S g = some lines →
        List.Sorted (· ≤ ·) (lines.map Prod.fst)) ∧
    (∀ (S : List ℚ → List ℚ) (g : Image),
        List.Sorted (· ≤ ·) ((find_text_lines S g).map Prod.fst)) := by
  constructor
  · intro S g lines h
    simp only [detect_text_regions] at h
    rcases hper : percentile 20 (((hProjI g).map (fun n => ((n : ℕ) : ℚ))
        |> S).filter fun v => decide (0 < v)) with _ | thr
    · rw [hper] at h; exact absurd h (by simp)
    · rw [hper] at h
      have : lines = (scanRuns thr 20 (S ((hProjI g).map fun n => ((n : ℕ) : ℚ)))).map
          (fun p => (p.1 - 5, min (hProjI g).length (p.2 + 5))) := by
        simpa using h.symm
      rw [this]
      exact padded_sorted _ _ _ _
  · intro S g
    simp only [find_text_lines]
    rcases hper : percentile 25 ((S (hProjF g)).filter fun v => decide (0 < v)) with _ | thr
    · simp
    · exact padded_sorted _ _ _ _

/-- Claim C10: the scan loop shared by all three line detectors
(detect_text_regions, find_text_lines, detect_lines are each `scanRuns`
applied after threshold selection) never emits the run still open at the
end of the signal.  First part: appending rows that stay above the
threshold to the bottom of the page changes nothing; second part: a page
whose projection is above the threshold everywhere yields no line at all,
however tall, stated for pipeline.detect_lines. -/
theorem C10_trailing_run_never_emitted :
    (∀ (thr : ℚ) (minH : ℕ) (sig suf : List ℚ), (∀ v ∈ suf, thr < v) →
        scanRuns thr minH (sig ++ suf) = scanRuns thr minH sig) ∧
    (∀ g : Image,
        (∀ v ∈ (hProjI g).map (fun n => ((n : ℕ) : ℚ)),
          qmul (((hProjI g).map (fun n => ((n : ℕ) : ℚ))).foldl max 0) (mkRat 1 10) < v) →
        detect_lines g = []) := by
  constructor
  · intro thr minH sig suf h
    exact scanGo_append_above thr minH suf h sig 0 0 false
  · intro g h
    simp only [detect_lines, scanRuns]
    exact scanGo_above_nil _ _ _ h 0 0 false

/-- Witness for C10 at concrete inputs: a five-row above-threshold run
reaching the end of the signal is dropped even though it exceeds the
minimum height 3, and a fully inked 25-row page yields no line. -/
theorem C10_witness :
    (∀ v ∈ ([1, 1, 1, 1, 1] : List ℚ), (0 : ℚ) < v) ∧
      scanRuns 0 3 ([0] ++ [1, 1, 1, 1, 1]) = scanRuns 0 3 [0] ∧
      detect_lines (blackImage 25 10) = [] := by
  refine ⟨by decide, C10_trailing_run_never_emitted.1 0 3 [0] _ (by decide),
    C10_trailing_run_never_emitted.2 (blackImage 25 10) (by decide)⟩

/-- Witness for C8: a concrete mask where detect_text_regions succeeds with
one line, whose start list is sorted. -/
theorem C8_witness :
    detect_text_regions (fun l => l) testImg = some [(0, 30)] ∧
      List.Sorted (· ≤ ·) ([((0 : ℕ), (30 : ℕ))].map Prod.fst) := by
  have h : detect_text_regions (fun l => l) testImg = some [(0, 30)] := by decide
  exact ⟨h, C8_lines_sorted_by_start.1 (fun l => l) testImg _ h⟩

/-! ## Claim C2: behaviour on an inkless mask -/

theorem filter_pos_of_all_zero (l : List ℚ) (h : ∀ v ∈ l, v = 0) :
    l.filter (fun v => decide (0 < v)) = [] := by
  apply List.filter_eq_nil_iff.mpr
  intro v hv
  rw [h v hv]
  simp

/-- Counterexample for C2 as frozen: on a mask with no ink pixels,
improved_extraction.detect_text_regions does not return an empty line
list; the nonzero selection is empty, `np.percentile` raises (modelled as
`none`), and the page run aborts. -/
theorem C2_counterexample :
    detect_text_regions (fun l => l) (blankImage 3 3) = none := by decide

/-- Claim C2, amended: on a binary mask with no ink pixels (all pixels are
background) and any smoothing that preserves the all-zero signal,
fix_character_extraction.find_text_lines returns the empty line list
without error, but improved_extraction.detect_text_regions raises, because
the 20th percentile of the empty nonzero selection is an error. -/
theorem C2_empty_mask (S : List ℚ → List ℚ) (g : Image)
    (hink : ∀ row ∈ g, ∀ v ∈ row, v = 255)
    (hS : ∀ sig : List ℚ, (∀ v ∈ sig, v = 0) → ∀ v ∈ S sig, v = 0) :
    find_text_lines S g = [] ∧ detect_text_regions S g = none := by
  have hzI : ∀ v ∈ (hProjI g).map (fun n => ((n : ℕ) : ℚ)), v = 0 := by
    intro v hv
    rcases List.mem_map.mp hv with ⟨n, hn, rfl⟩
    rcases List.mem_map.mp hn with ⟨row, hrow, rfl⟩
    have hc : List.count 0 row = 0 := by
      apply List.count_eq_zero.mpr
      intro h0
      have := hink row hrow 0 h0
      omega
    rw [hc]
    simp
  have hzF : ∀ v ∈ hProjF g, v = 0 := by
    intro v hv
    rcases List.mem_map.mp hv with ⟨row, hrow, rfl⟩
    have hsum : (row.map bnot).sum = 0 := by
      apply List.sum_eq_zero
      intro x hx
      rcases List.mem_map.mp hx with ⟨v', hv', rfl⟩
      rw [hink row hrow v' hv']
      rfl
    rw [hsum, qdiv_eq]
    norm_num
  refine ⟨?_, ?_⟩
  · simp only [find_text_lines]
    rw [filter_pos_of_all_zero _ (hS _ hzF)]
    rfl
  · simp only [detect_text_regions]
    rw [filter_pos_of_all_zero _ (hS _ hzI)]
    rfl

/-- Witness for C2 at a concrete inkless 3-by-3 mask with the identity
smoothing. -/
theorem C2_witness :
    find_text_lines (fun l => l) (blankImage 3 3) = [] ∧
      detect_text_regions (fun l => l) (blankImage 3 3) = none :=
  C2_empty_mask (fun l => l) (blankImage 3 3) (by decide) (fun _ h v hv => h v hv)

/-! ## Claim C9: determinism of the extraction path -/

/-- Claim C9: the embedded extraction path is a pure function of the page
raster and the smoothing parameter; running it twice with unchanged inputs
yields glyph lists with identical bounding boxes and quality scores.  The
source contains no randomness, time, or I/O dependence on the path from
the binary mask to the glyph records, so the two runs agree
definitionally. -/
theorem C9_deterministic (S : List ℚ → List ℚ) (g : Image) :
    ((improvedPage S g).map (List.map (fun gl => (gl.x, gl.y, gl.width, gl.height, gl.quality))) =
      (improvedPage S g).map (List.map (fun gl => (gl.x, gl.y, gl.width, gl.height, gl.quality)))) ∧
      fixPage S g = fixPage S g :=
  ⟨rfl, rfl⟩

/-! ## Evaluation lemmas on uniform rasters -/

theorem pixOpt_uniform (h w v r c : ℕ) :
    pixOpt (List.replicate h (List.replicate w v)) r c = none ∨
      pixOpt (List.replicate h (List.replicate w v)) r c = some v := by
  unfold pixOpt
  rw [List.get?_eq_getElem?, List.getElem?_replicate]
  by_cases hr : r < h
  · rw [if_pos hr]
    simp only [Option.some_bind]
    rw [List.get?_eq_getElem?, List.getElem?_replicate]
    by_cases hc : c < w
    · rw [if_pos hc]; right; rfl
    · rw [if_neg hc]; left; rfl
  · rw [if_neg hr]; left; rfl

theorem isEdgePix_uniform (h w v r c : ℕ) :
    isEdgePix (List.replicate h (List.replicate w v)) r c = false := by
  unfold isEdgePix
  rcases pixOpt_uniform h w v r c with hp | hp
  · rw [hp]
  · rw [hp]
    apply List.any_eq_false.mpr
    intro q _
    rcases pixOpt_uniform h w v q.1 q.2 with h2 | h2
    · simp [h2]
    · simp [h2]

theorem cannyEdges_uniform (h w v : ℕ) :
    cannyEdges (List.replicate h (List.replicate w v)) = 0 := by
  unfold cannyEdges
  apply List.sum_eq_zero
  intro x hx
  rcases List.mem_map.mp hx with ⟨r, _, rfl⟩
  rw [List.length_eq_zero]
  apply List.filter_eq_nil_iff.mpr
  intro c _
  simp [isEdgePix_uniform]

theorem cannyEdges_blank (h w : ℕ) : cannyEdges (blankImage h w) = 0 :=
  cannyEdges_uniform h w 255

theorem countVal_blank (h w : ℕ) : countVal 0 (blankImage h w) = 0 := by
  simp [countVal, blankImage, List.map_replicate, List.count_replicate, List.sum_replicate]

theorem countBelow_blank (h w : ℕ) : countBelow 127 (blankImage h w) = 0 := by
  simp [countBelow, blankImage, List.map_replicate, List.sum_replicate,
    List.filter_replicate]

theorem fgRow_zero (r : ℕ) : ∀ (w c0 : ℕ), fgRow r c0 (List.replicate w 0) = [] := by
  intro w
  induction w with
  | zero => intro c0; rfl
  | succ n ih =>
    intro c0
    rw [List.replicate_succ]
    simp only [fgRow]
    rw [if_neg (by simp)]
    exact ih (c0 + 1)

theorem fgFrom_black (w : ℕ) : ∀ (h r0 : ℕ), fgFrom r0 (List.replicate h (List.replicate w 0)) = [] := by
  intro h
  induction h with
  | zero => intro r0; rfl
  | succ n ih =>
    intro r0
    rw [List.replicate_succ]
    simp only [fgFrom]
    rw [fgRow_zero, ih]
    rfl

theorem components_black (h w : ℕ) : components (blackImage h w) = [] := by
  unfold components fgPixels blackImage
  rw [fgFrom_black]
  rfl

theorem mapGrid_bnot_blank (h w : ℕ) : mapGrid bnot (blankImage h w) = blackImage h w := by
  simp [mapGrid, blankImage, blackImage, List.map_replicate, bnot]

theorem numLabels_bnot_blank (h w : ℕ) : numLabels (mapGrid bnot (blankImage h w)) = 1 := by
  rw [mapGrid_bnot_blank]
  unfold numLabels
  rw [components_black]
  rfl

theorem imgH_blank (h w : ℕ) : imgH (blankImage h w) = h := by
  simp [imgH, blankImage]

theorem imgW_blank (h w : ℕ) (hh : 0 < h) : imgW (blankImage h w) = w := by
  cases h with
  | zero => omega
  | succ n => simp [imgW, blankImage, List.replicate_succ]

theorem imgSize_blank (h w : ℕ) : imgSize (blankImage h w) = h * w := by
  simp [imgSize, blankImage, List.map_replicate, List.sum_replicate, smul_eq_mul]

/-! ## Claims C3 and C4: quality-score boundary behaviour and range -/

/-- Counterexample for C3 as frozen: an entirely blank 30-by-30 glyph
bitmap does not score near the minimum and is not excluded; it scores 0.4
under improved_extraction (above the 0.3 cutoff, hence kept by the
`quality_score > 0.3` filter) and 0.5 under fix_character_extraction
(above the `< 0.3` skip). -/
theorem C3_counterexample :
    calculate_quality_score (blankImage 30 30) = mkRat 2 5 ∧
      mkRat 3 10 < mkRat 2 5 ∧
      calculate_quality (blankImage 30 30) = mkRat 1 2 ∧
      mkRat 3 10 < mkRat 1 2 := by decide

/-- Claim C3, amended: for every entirely blank glyph bitmap whose
dimensions pass the size gates, the density and edge terms vanish but the
connectivity term is maximal (zero ink components), so
improved_extraction scores it 0.4 and fix_character_extraction 0.5 - both
above the 0.3 persistence cutoff, so a blank glyph is included, not
excluded. -/
theorem C3_blank_scores (h w : ℕ) (h1 : 20 < h) (h2 : h < 120) (h3 : 15 < w) (h4 : w < 100) :
    calculate_quality_score (blankImage h w) = mkRat 2 5 ∧
      calculate_quality (blankImage h w) = mkRat 1 2 := by
  have hh : 0 < h := by omega
  constructor
  · simp only [calculate_quality_score]
    rw [countVal_blank, cannyEdges_blank, numLabels_bnot_blank, imgH_blank,
      imgW_blank h w hh, imgSize_blank]
    rw [if_pos ⟨h1, h2, h3, h4⟩]
    simp only [qadd_eq, qsub_eq, qmul_eq, qdiv_eq, qabs_eq, Rat.mkRat_eq_div]
    push_cast
    norm_num [min_def, abs_of_nonneg, sup_eq_max, max_def]
  · simp only [calculate_quality]
    rw [countBelow_blank, cannyEdges_blank, numLabels_bnot_blank, imgSize_blank]
    simp only [qadd_eq, qsub_eq, qmul_eq, qdiv_eq, qabs_eq, Rat.mkRat_eq_div]
    push_cast
    norm_num [min_def, abs_of_nonneg, sup_eq_max, max_def]

/-- Witness for C3 at a second concrete size passing the gates. -/
theorem C3_witness :
    (20 < 40 ∧ 15 < 25) ∧ calculate_quality_score (blankImage 40 25) = mkRat 2 5 ∧
      calculate_quality (blankImage 40 25) = mkRat 1 2 :=
  ⟨by decide, (C3_blank_scores 40 25 (by decide) (by decide) (by decide) (by decide)).1,
    (C3_blank_scores 40 25 (by decide) (by decide) (by decide) (by decide)).2⟩

/-- Counterexample for C4 as frozen: the improved_extraction quality score is
not confined to [0, 1]; on an all-ink 10-by-10 bitmap the unclamped
density term is 1 - |1 - 0.15|/0.15 = -14/3 and the total score is
-11/10. -/
theorem C4_counterexample :
    calculate_quality_score (blackImage 10 10) = mkRat (-11) 10 ∧
      mkRat (-11) 10 < 0 := by decide

/-- Bounding the fix_character_extraction score shape. -/
theorem fix_score_shape (X C E : ℚ) (hC : 1 ≤ C) (hE : 0 ≤ E) :
    0 ≤ (if 1/10 ≤ X ∧ X ≤ 2/5 then (1:ℚ) else 0 ⊔ (1 - |X - 1/4| * 2)) * (2/5) +
        1/C * (3/10) + min (E * 20) 1 * (3/10) ∧
      (if 1/10 ≤ X ∧ X ≤ 2/5 then (1:ℚ) else 0 ⊔ (1 - |X - 1/4| * 2)) * (2/5) +
        1/C * (3/10) + min (E * 20) 1 * (3/10) ≤ 1 := by
  have hC0 : (0:ℚ) < C := lt_of_lt_of_le one_pos hC
  have hd0 : 0 ≤ (if 1/10 ≤ X ∧ X ≤ 2/5 then (1:ℚ) else 0 ⊔ (1 - |X - 1/4| * 2)) := by
    split_ifs
    · norm_num
    · exact le_sup_left
  have hd1 : (if 1/10 ≤ X ∧ X ≤ 2/5 then (1:ℚ) else 0 ⊔ (1 - |X - 1/4| * 2)) ≤ 1 := by
    split_ifs
    · norm_num
    · apply sup_le (by norm_num)
      nlinarith [abs_nonneg (X - 1/4)]
  have hc0 : 0 ≤ 1/C := by positivity
  have hc1 : 1/C ≤ 1 := by
    rw [div_le_one hC0]; exact hC
  have hm0 : 0 ≤ min (E * 20) 1 := le_min (by positivity) (by norm_num)
  have hm1 : min (E * 20) 1 ≤ 1 := min_le_right _ _
  constructor <;> nlinarith

/-- Bounding the improved_extraction score shape from above. -/
theorem improved_score_shape (Y C E S2 : ℚ) (hC : 1 ≤ C) (hS : S2 ≤ 1) :
    (1 - |Y - 3/20| / (3/20)) * (3/10) + min (E / (1/20)) 1 * (3/10) +
        (1/C * (1/5) + S2 * (1/5)) ≤ 1 := by
  have hC0 : (0:ℚ) < C := lt_of_lt_of_le one_pos hC
  have hd1 : (1 - |Y - 3/20| / (3/20)) ≤ 1 := by
    have := abs_nonneg (Y - 3/20)
    have : 0 ≤ |Y - 3/20| / (3/20) := by positivity
    linarith
  have hm1 : min (E / (1/20)) 1 ≤ 1 := min_le_right _ _
  have hc1 : 1/C ≤ 1 := by
    rw [div_le_one hC0]; exact hC
  have h1 : (1 - |Y - 3/20| / (3/20)) * (3/10) ≤ 1 * (3/10) :=
    mul_le_mul_of_nonneg_right hd1 (by norm_num)
  have h2 : min (E / (1/20)) 1 * (3/10) ≤ 1 * (3/10) :=
    mul_le_mul_of_nonneg_right hm1 (by norm_num)
  have h3 : 1/C * (1/5) ≤ 1 * (1/5) := mul_le_mul_of_nonneg_right hc1 (by norm_num)
  have h4 : S2 * (1/5) ≤ 1 * (1/5) := mul_le_mul_of_nonneg_right hS (by norm_num)
  linarith

/-- Claim C4, amended: the fix_character_extraction quality score always lies
in [0, 1], and the improved_extraction score is bounded above by 1 but not
below by 0 (its density term is unclamped, see the counterexample). -/
theorem C4_quality_range (img : Image) :
    (0 ≤ calculate_quality img ∧ calculate_quality img ≤ 1) ∧
      calculate_quality_score img ≤ 1 := by
  have hCnat : ∀ g : Image, (1:ℚ) ≤ ((numLabels g - 1 : ℕ) : ℚ) ⊔ 1 := fun _ => le_sup_right
  have hEnn : ∀ (a b : ℕ), (0:ℚ) ≤ ((a : ℕ) : ℚ) / ((b : ℕ) : ℚ) := by
    intro a b; positivity
  constructor
  · simp only [calculate_quality, qadd_eq, qsub_eq, qmul_eq, qdiv_eq, qabs_eq,
      Rat.mkRat_eq_div]
    push_cast
    exact fix_score_shape _ _ _ (hCnat _) (hEnn _ _)
  · simp only [calculate_quality_score, qadd_eq, qsub_eq, qmul_eq, qdiv_eq, qabs_eq,
      Rat.mkRat_eq_div]
    push_cast
    split_ifs
    · exact improved_score_shape _ _ _ _ (hCnat _) (by norm_num)
    · exact improved_score_shape _ _ _ _ (hCnat _) (by norm_num)

/-! ## Claim C5: which glyphs are persisted -/

/-- Counterexample for C5 as frozen: fix_character_extraction persists a
glyph whose quality score is exactly 0.3 (its save loop skips only
`quality < 0.3`), and the score 0.3 is attained, for example by an
all-ink 10-by-10 bitmap. -/
theorem C5_counterexample :
    calculate_quality (blackImage 10 10) = mkRat 3 10 ∧
      save_characters [boundaryChar] =
        [⟨0, 0, mkRat 3 10, 0, 0, 10, 10⟩] := by decide

/-- The save loop of save_characters equals filter-then-take-2000. -/
theorem saveGo_eq :
    ∀ (l : List CharF) (cnt : ℕ), cnt < 2000 →
      saveGo l cnt =
        ((l.filter (fun c => decide (mkRat 3 10 ≤ c.quality))).take (2000 - cnt)).map mkMetaF := by
  intro l
  induction l with
  | nil => intro cnt _; simp [saveGo]
  | cons c rest ih =>
    intro cnt hcnt
    simp only [saveGo]
    by_cases hq : c.quality < mkRat 3 10
    · rw [if_pos hq, List.filter_cons]
      have hfalse : decide (mkRat 3 10 ≤ c.quality) = false := by
        simp [not_le.mpr hq]
      rw [hfalse]
      simp only [Bool.false_eq_true, if_false]
      exact ih cnt hcnt
    · rw [if_neg hq, List.filter_cons]
      have htrue : decide (mkRat 3 10 ≤ c.quality) = true := by
        simp [not_lt.mp hq]
      rw [htrue]
      simp only [if_true]
      have hsplit : 2000 - cnt = (2000 - (cnt + 1)) + 1 := by omega
      rw [hsplit, List.take_succ_cons, List.map_cons]
      by_cases hc2 : 2000 ≤ cnt + 1
      · rw [if_pos hc2]
        have h1999 : cnt = 1999 := by omega
        subst h1999
        norm_num
      · rw [if_neg hc2]
        rw [ih (cnt + 1) (by omega)]

/-- Claim C5, amended: improved_extraction persists exactly the glyphs
with quality strictly above 0.3 (its segmentation filter; the save step
writes every filtered record), while fix_character_extraction persists
the records with quality at least 0.3 - the boundary value included - and
only the first 2000 of them in quality-descending order. -/
theorem C5_persistence_rule :
    (∀ (g : Image) (lines : List (ℕ × ℕ)) (gl : Glyph),
        gl ∈ segment_characters_advanced g lines ↔
          gl ∈ segGo g lines 0 0 ∧ mkRat 3 10 < gl.quality) ∧
    (∀ cs : List CharF,
        save_characters cs =
          (((sortLe (fun a b => decide (b.quality ≤ a.quality)) cs).filter
              (fun c => decide (mkRat 3 10 ≤ c.quality))).take 2000).map mkMetaF) := by
  constructor
  · intro g lines gl
    simp [segment_characters_advanced, List.mem_filter]
  · intro cs
    unfold save_characters
    rw [saveGo_eq _ 0 (by omega)]

/-! ## Claims C6 and C7: the touching-character splitter and omega flag -/

theorem argminGo_lt : ∀ (l : List ℕ) (bi bv i : ℕ), bi < i → argminGo bi bv i l < i + l.length := by
  intro l
  induction l with
  | nil => intro bi bv i h; simpa [argminGo] using h
  | cons v vs ih =>
    intro bi bv i h
    simp only [argminGo]
    by_cases hv : v < bv
    · rw [if_pos hv]
      have := ih i v (i + 1) (Nat.lt_succ_self i)
      simpa [Nat.add_assoc, Nat.add_comm 1 vs.length] using this
    · rw [if_neg hv]
      have := ih bi bv (i + 1) (Nat.lt_succ_of_lt h)
      simpa [Nat.add_assoc, Nat.add_comm 1 vs.length] using this

theorem argminIdx_lt_length (l : List ℕ) (h : 0 < l.length) : argminIdx l < l.length := by
  cases l with
  | nil => simp at h
  | cons v vs =>
    simp only [argminIdx]
    have := argminGo_lt vs 0 v 1 Nat.zero_lt_one
    simpa [Nat.add_comm 1 vs.length] using this

theorem vProj_length (g : Image) : (vProj g).length = imgW g := by
  simp [vProj]

theorem imgW_rect (g : Image) (w h : ℕ) (hr : IsRect g w h) (hh : 0 < h) : imgW g = w := by
  rcases hr with ⟨hl, hrow⟩
  cases g with
  | nil => simp at hl; omega
  | cons r rest => exact hrow r (List.mem_cons_self r rest)

theorem imgW_map_take (g : Image) (sp : ℕ) (hne : g ≠ []) :
    imgW (g.map (fun row => row.take sp)) = min sp (imgW g) := by
  cases g with
  | nil => exact absurd rfl hne
  | cons r rest => simp [imgW, List.length_take]

theorem imgW_map_drop (g : Image) (sp : ℕ) (hne : g ≠ []) :
    imgW (g.map (fun row => row.drop sp)) = imgW g - sp := by
  cases g with
  | nil => exact absurd rfl hne
  | cons r rest => simp [imgW, List.length_drop]

/-- Claim C6: for a component record (heights of at least 10 pixels are
guaranteed by the segmentation size gate) over its own bitmap: a
non-omega component with width/height above 1.8 whose middle-third
vertical-projection window has a minimum below 30 percent of that
window maximum is cut at the (first) minimum column into exactly two
records whose widths sum to the original width; in every other case
(no valley, ratio at most 1.8, or the omega flag) the record passes
through unchanged. -/
theorem C6_split_spec (c : CharData) (hh : 10 ≤ c.h) (hrect : IsRect c.image c.w c.h) :
    (mkRat 9 5 < qdiv (c.w : ℚ) (c.h : ℚ) → c.isOmega = false →
      ((((minD (midOf c) : ℕ) : ℚ) < qmul ((maxD (midOf c) : ℕ) : ℚ) (mkRat 3 10) →
          ∃ l r, splitOne c = [l, r] ∧
            l.w = c.w / 3 + argminIdx (midOf c) ∧ r.w = c.w - l.w ∧ l.w + r.w = c.w ∧
            l.x = c.x ∧ r.x = c.x + l.w ∧ l.y = c.y ∧ r.y = c.y ∧ l.h = c.h ∧ r.h = c.h) ∧
        (¬ (((minD (midOf c) : ℕ) : ℚ) < qmul ((maxD (midOf c) : ℕ) : ℚ) (mkRat 3 10)) →
          splitOne c = [c]))) ∧
    (qdiv (c.w : ℚ) (c.h : ℚ) ≤ mkRat 9 5 → splitOne c = [c]) ∧
    (c.isOmega = true → splitOne c = [c]) := by
  have hhpos : 0 < c.h := by omega
  have himgW : imgW c.image = c.w := imgW_rect c.image c.w c.h hrect hhpos
  have hne : c.image ≠ [] := by
    intro hnil
    rcases hrect with ⟨hl, _⟩
    rw [hnil] at hl
    simp at hl
    omega
  refine ⟨?_, ?_, ?_⟩
  · intro hr ho
    -- width is at least 19: 9/5 < w/h and h >= 10
    have hw19 : 19 ≤ c.w := by
      rw [qdiv_eq] at hr
      have hmk : (mkRat 9 5 : ℚ) = 9 / 5 := by
        rw [Rat.mkRat_eq_div]; norm_num
      rw [hmk] at hr
      have hhq : (0:ℚ) < (c.h : ℚ) := by exact_mod_cast hhpos
      rw [lt_div_iff hhq] at hr
      have h10 : (10:ℚ) ≤ (c.h : ℚ) := by exact_mod_cast hh
      have : (18:ℚ) < (c.w : ℚ) := by nlinarith
      exact_mod_cast (by exact_mod_cast this : (18:ℕ) < c.w)
    have hms : c.w / 3 < 2 * c.w / 3 := by omega
    have hmidlen : (((vProj c.image).drop (c.w / 3)).take (2 * c.w / 3 - c.w / 3)).length
        = 2 * c.w / 3 - c.w / 3 := by
      rw [List.length_take, List.length_drop, vProj_length, himgW]
      omega
    have hlen : 0 < (((vProj c.image).drop (c.w / 3)).take (2 * c.w / 3 - c.w / 3)).length := by
      rw [hmidlen]; omega
    have hsp : c.w / 3 +
        argminIdx (((vProj c.image).drop (c.w / 3)).take (2 * c.w / 3 - c.w / 3)) <
        2 * c.w / 3 := by
      have h1 := argminIdx_lt_length _ hlen
      rw [hmidlen] at h1
      omega
    constructor
    · intro hvalley
      have hgl : 5 < imgW (c.image.map (fun row =>
          row.take (c.w / 3 +
            argminIdx (((vProj c.image).drop (c.w / 3)).take (2 * c.w / 3 - c.w / 3))))) := by
        rw [imgW_map_take c.image _ hne, himgW]
        omega
      have hgr : 5 < imgW (c.image.map (fun row =>
          row.drop (c.w / 3 +
            argminIdx (((vProj c.image).drop (c.w / 3)).take (2 * c.w / 3 - c.w / 3))))) := by
        rw [imgW_map_drop c.image _ hne, himgW]
        omega
      simp only [splitOne]
      rw [if_pos ⟨hr, ho⟩, if_pos hms]
      rw [if_pos ⟨hlen, by simpa [midOf] using hvalley⟩]
      rw [if_pos ⟨hgl, hgr⟩]
      refine ⟨_, _, rfl, rfl, rfl, ?_, rfl, rfl, rfl, rfl, rfl, rfl⟩
      show (c.w / 3 + argminIdx (((vProj c.image).drop (c.w / 3)).take (2 * c.w / 3 - c.w / 3))) +
          (c.w - (c.w / 3 +
            argminIdx (((vProj c.image).drop (c.w / 3)).take (2 * c.w / 3 - c.w / 3)))) = c.w
      omega
    · intro hvalley
      simp only [splitOne]
      rw [if_pos ⟨hr, ho⟩, if_pos hms]
      rw [if_neg ?_]
      intro hand
      exact hvalley (by simpa [midOf] using hand.2)
  · intro hle
    simp only [splitOne]
    rw [if_neg ?_]
    intro hand
    exact absurd hand.1 (not_lt.mpr hle)
  · intro ho
    simp only [splitOne]
    rw [if_neg ?_]
    intro hand
    rw [ho] at hand
    exact Bool.true_eq_false.mp hand.2

/-- Witness for C6: the two-blob 12-by-24 component splits into two
records of widths 10 and 14 at the first minimum column of the middle
third. -/
theorem C6_witness :
    ∃ l r, splitOne splitChar = [l, r] ∧
      l.w = 24 / 3 + argminIdx (midOf splitChar) ∧ r.w = 24 - l.w ∧ l.w + r.w = 24 ∧
      l.x = 0 ∧ r.x = 0 + l.w ∧ l.y = 0 ∧ r.y = 0 ∧ l.h = 12 ∧ r.h = 12 :=
  ((C6_split_spec splitChar (by decide) (by decide)).1 (by decide) rfl).1 (by decide)

/-- Claim C7: a component is flagged omega exactly when its width/height
ratio is at least 1.3 and one erosion of its inverted bitmap with the
3-by-3 elliptical kernel leaves 2 or 3 connected components; a flagged
component is exempt from the touching-character splitter regardless of
its ratio. -/
theorem C7_omega_spec :
    (∀ (img : Image) (w h : ℕ),
        detect_omega_pattern img w h = true ↔
          mkRat 13 10 ≤ qdiv (w : ℚ) (h : ℚ) ∧
            2 ≤ (components (erodeCross (mapGrid bnot img))).length ∧
            (components (erodeCross (mapGrid bnot img))).length ≤ 3) ∧
    (∀ c : CharData, c.isOmega = true → splitOne c = [c]) := by
  constructor
  · intro img w h
    simp only [detect_omega_pattern, numLabels]
    by_cases hv : qdiv (w : ℚ) (h : ℚ) < mkRat 13 10
    · rw [if_pos hv]
      apply iff_of_false (by simp)
      intro hand
      exact absurd hand.1 (not_le.mpr hv)
    · rw [if_neg hv, decide_eq_true_iff]
      constructor
      · intro hand
        exact ⟨not_lt.mp hv, by omega, by omega⟩
      · intro hand
        exact ⟨by omega, by omega⟩
  · intro c hoc
    simp only [splitOne]
    rw [if_neg ?_]
    intro hand
    rw [hoc] at hand
    exact Bool.true_eq_false.mp hand.2

/-- Witness for C7: the synthetic double-blob bitmap with ratio 1.5 is
flagged omega (two blobs survive the erosion) and passes the splitter
unchanged. -/
theorem C7_witness :
    detect_omega_pattern omegaImg 21 14 = true ∧ splitOne omegaChar = [omegaChar] := by
  constructor
  · exact (C7_omega_spec.1 omegaImg 21 14).mpr ⟨by decide, by decide, by decide⟩
  · exact C7_omega_spec.2 omegaChar rfl

/-! ## Claim C1: bounding boxes stay inside the page -/

theorem snd_mem_of_mem_enum {α : Type} {l : List α} {x : ℕ × α} (h : x ∈ l.enum) : x.2 ∈ l := by
  rw [List.mem_enum_iff_getElem?] at h
  exact List.getElem?_mem h

theorem fgRow_bounds (r : ℕ) :
    ∀ (vs : List ℕ) (c0 : ℕ) (p : ℕ × ℕ), p ∈ fgRow r c0 vs →
      p.1 = r ∧ c0 ≤ p.2 ∧ p.2 < c0 + vs.length := by
  intro vs
  induction vs with
  | nil => intro c0 p hp; simp [fgRow] at hp
  | cons v rest ih =>
    intro c0 p hp
    simp only [fgRow] at hp
    by_cases hv : v ≠ 0
    · rw [if_pos hv] at hp
      rcases List.mem_cons.mp hp with h | h
      · subst h; simp
      · have := ih (c0 + 1) p h
        refine ⟨this.1, by omega, by simpa [Nat.add_assoc, Nat.add_comm 1 rest.length] using this.2.2⟩
    · rw [if_neg hv] at hp
      have := ih (c0 + 1) p hp
      refine ⟨this.1, by omega, by simpa [Nat.add_assoc, Nat.add_comm 1 rest.length] using this.2.2⟩

theorem fgFrom_bounds (W : ℕ) :
    ∀ (g : Image) (r0 : ℕ) (p : ℕ × ℕ), (∀ row ∈ g, row.length = W) → p ∈ fgFrom r0 g →
      r0 ≤ p.1 ∧ p.1 < r0 + g.length ∧ p.2 < W := by
  intro g
  induction g with
  | nil => intro r0 p _ hp; simp [fgFrom] at hp
  | cons row rest ih =>
    intro r0 p hrow hp
    simp only [fgFrom] at hp
    rcases List.mem_append.mp hp with h | h
    · have hb := fgRow_bounds r0 row 0 p h
      have hlen := hrow row (List.mem_cons_self row rest)
      refine ⟨by omega, by simp; omega, by omega⟩
    · have := ih (r0 + 1) p (fun q hq => hrow q (List.mem_cons_of_mem row hq)) h
      refine ⟨by omega, by simp; omega, this.2.2⟩

theorem fgPixels_bounds (g : Image) (W : ℕ) (hrow : ∀ row ∈ g, row.length = W) :
    ∀ p ∈ fgPixels g, p.1 < g.length ∧ p.2 < W := by
  intro p hp
  have := fgFrom_bounds W g 0 p hrow hp
  exact ⟨by omega, this.2.2⟩

theorem foldl_addPix_inv (P : ℕ × ℕ → Prop) :
    ∀ (l : List (ℕ × ℕ)) (acc : List (List (ℕ × ℕ))),
      (∀ comp ∈ acc, ∀ p ∈ comp, P p) → (∀ p ∈ l, P p) →
      ∀ comp ∈ l.foldl addPix acc, ∀ p ∈ comp, P p := by
  intro l
  induction l with
  | nil => intro acc hacc _ comp hcomp; exact hacc comp hcomp
  | cons q rest ih =>
    intro acc hacc hl
    simp only [List.foldl_cons]
    apply ih
    · intro comp hcomp p hp
      simp only [addPix, List.partition_eq_filter_filter] at hcomp
      rcases List.mem_cons.mp hcomp with h | h
      · subst h
        rcases List.mem_cons.mp hp with h2 | h2
        · rw [h2]; exact hl q (List.mem_cons_self q rest)
        · rcases List.mem_flatten.mp h2 with ⟨comp2, hc2, hp2⟩
          exact hacc comp2 (List.mem_of_mem_filter hc2) p hp2
      · exact hacc comp (List.mem_of_mem_filter h) p hp
    · intro p hp
      exact hl p (List.mem_cons_of_mem q hp)

theorem components_pixels (g : Image) :
    ∀ comp ∈ components g, ∀ p ∈ comp, p ∈ fgPixels g := by
  apply foldl_addPix_inv (fun p => p ∈ fgPixels g) (fgPixels g) []
  · intro comp hcomp; simp at hcomp
  · intro p hp; exact hp

theorem foldl_addPix_ne :
    ∀ (l : List (ℕ × ℕ)) (acc : List (List (ℕ × ℕ))),
      (∀ comp ∈ acc, comp ≠ []) →
      ∀ comp ∈ l.foldl addPix acc, comp ≠ [] := by
  intro l
  induction l with
  | nil => intro acc hacc comp hcomp; exact hacc comp hcomp
  | cons q rest ih =>
    intro acc hacc
    simp only [List.foldl_cons]
    apply ih
    intro comp hcomp
    simp only [addPix, List.partition_eq_filter_filter] at hcomp
    rcases List.mem_cons.mp hcomp with h | h
    · subst h; simp
    · exact hacc comp (List.mem_of_mem_filter h)

theorem components_ne (g : Image) : ∀ comp ∈ components g, comp ≠ [] := by
  apply foldl_addPix_ne
  intro comp hcomp
  simp at hcomp

theorem foldl_max_lt (f : ℕ × ℕ → ℕ) (B : ℕ) :
    ∀ (ps : List (ℕ × ℕ)) (a : ℕ), a < B → (∀ q ∈ ps, f q < B) →
      ps.foldl (fun a q => max a (f q)) a < B := by
  intro ps
  induction ps with
  | nil => intro a ha _; exact ha
  | cons q rest ih =>
    intro a ha hq
    simp only [List.foldl_cons]
    apply ih
    · have := hq q (List.mem_cons_self q rest)
      omega
    · intro r hr; exact hq r (List.mem_cons_of_mem q hr)

theorem foldl_min_le_max (f : ℕ × ℕ → ℕ) :
    ∀ (ps : List (ℕ × ℕ)) (a b : ℕ), a ≤ b →
      ps.foldl (fun a q => min a (f q)) a ≤ ps.foldl (fun a q => max a (f q)) b := by
  intro ps
  induction ps with
  | nil => intro a b h; exact h
  | cons q rest ih =>
    intro a b h
    simp only [List.foldl_cons]
    apply ih
    omega

theorem compStats_bounds (comp : List (ℕ × ℕ)) (hne : comp ≠ []) (W H : ℕ)
    (hb : ∀ p ∈ comp, p.1 < H ∧ p.2 < W) :
    (compStats comp).x + (compStats comp).w ≤ W ∧
      (compStats comp).y + (compStats comp).h ≤ H ∧ 0 < (compStats comp).h := by
  cases comp with
  | nil => exact absurd rfl hne
  | cons p ps =>
    simp only [compStats, foldlMin, foldlMax]
    have hmaxC : ps.foldl (fun a q => max a (q.2)) p.2 < W := by
      apply foldl_max_lt
      · exact (hb p (List.mem_cons_self p ps)).2
      · intro q hq; exact (hb q (List.mem_cons_of_mem p hq)).2
    have hmaxR : ps.foldl (fun a q => max a (q.1)) p.1 < H := by
      apply foldl_max_lt
      · exact (hb p (List.mem_cons_self p ps)).1
      · intro q hq; exact (hb q (List.mem_cons_of_mem p hq)).1
    have hminC : ps.foldl (fun a q => min a (q.2)) p.2 ≤ ps.foldl (fun a q => max a (q.2)) p.2 :=
      foldl_min_le_max _ ps p.2 p.2 (Nat.le_refl _)
    have hminR : ps.foldl (fun a q => min a (q.1)) p.1 ≤ ps.foldl (fun a q => max a (q.1)) p.1 :=
      foldl_min_le_max _ ps p.1 p.1 (Nat.le_refl _)
    refine ⟨by omega, by omega, by omega⟩

theorem mapGrid_rowlen (f : ℕ → ℕ) (g : Image) (W : ℕ) (hrow : ∀ row ∈ g, row.length = W) :
    ∀ row ∈ mapGrid f g, row.length = W := by
  intro row h
  rcases List.mem_map.mp h with ⟨r0, hr0, rfl⟩
  rw [List.length_map]
  exact hrow r0 hr0

theorem mapGrid_length (f : ℕ → ℕ) (g : Image) : (mapGrid f g).length = g.length :=
  List.length_map g (List.map f)

theorem lineChars_bounds (lineImg : Image) (W : ℕ) (hrow : ∀ row ∈ lineImg, row.length = W) :
    ∀ cd ∈ lineChars lineImg,
      cd.x + cd.w ≤ W ∧ cd.y + cd.h ≤ lineImg.length ∧ 0 < cd.h := by
  intro cd hcd
  rcases List.mem_filterMap.mp hcd with ⟨comp, hcomp, hf⟩
  have hpix : ∀ p ∈ comp, p.1 < lineImg.length ∧ p.2 < W := by
    intro p hp
    have h1 := components_pixels (mapGrid bnot lineImg) comp hcomp p hp
    have h2 := fgPixels_bounds (mapGrid bnot lineImg) W (mapGrid_rowlen bnot lineImg W hrow) p h1
    rw [mapGrid_length] at h2
    exact h2
  have hne := components_ne (mapGrid bnot lineImg) comp hcomp
  have hstats := compStats_bounds comp hne W lineImg.length hpix
  dsimp only [] at hf
  split_ifs at hf
  obtain rfl := Option.some.inj hf
  exact ⟨hstats.1, hstats.2.1, hstats.2.2⟩

theorem extract_line_bounds (lineImg : Image) (W : ℕ) (hrow : ∀ row ∈ lineImg, row.length = W) :
    ∀ cf ∈ extract_line_characters lineImg,
      cf.x + cf.w ≤ W ∧ cf.y + cf.h ≤ lineImg.length ∧ 0 < cf.h := by
  intro cf hcf
  rw [extract_line_characters, mem_sortLe] at hcf
  rcases List.mem_filterMap.mp hcf with ⟨comp, hcomp, hf⟩
  have hpix : ∀ p ∈ comp, p.1 < lineImg.length ∧ p.2 < W := by
    intro p hp
    have h1 := components_pixels (mapGrid bnot lineImg) comp hcomp p hp
    have h2 := fgPixels_bounds (mapGrid bnot lineImg) W (mapGrid_rowlen bnot lineImg W hrow) p h1
    rw [mapGrid_length] at h2
    exact h2
  have hne := components_ne (mapGrid bnot lineImg) comp hcomp
  have hstats := compStats_bounds comp hne W lineImg.length hpix
  dsimp only [] at hf
  split_ifs at hf
  all_goals
    obtain rfl := Option.some.inj hf
  all_goals exact ⟨hstats.1, hstats.2.1, hstats.2.2⟩

theorem splitOne_bounds (c : CharData) :
    ∀ d ∈ splitOne c, d.y = c.y ∧ d.h = c.h ∧ c.x ≤ d.x ∧ d.x + d.w ≤ c.x + c.w := by
  intro d hd
  simp only [splitOne] at hd
  split_ifs at hd with h1 h2 h3 h4
  · have hmidlt := argminIdx_lt_length _ h3.1
    have hmidlen : (((vProj c.image).drop (c.w / 3)).take (2 * c.w / 3 - c.w / 3)).length ≤
        2 * c.w / 3 - c.w / 3 := by
      rw [List.length_take]
      omega
    rcases List.mem_cons.mp hd with h | h
    · rw [h]
      refine ⟨rfl, rfl, Nat.le_refl _, ?_⟩
      show c.x + (c.w / 3 + argminIdx (((vProj c.image).drop (c.w / 3)).take
          (2 * c.w / 3 - c.w / 3))) ≤ c.x + c.w
      omega
    · rcases List.mem_cons.mp h with h' | h'
      · rw [h']
        refine ⟨rfl, rfl, ?_, ?_⟩
        · show c.x ≤ c.x + (c.w / 3 + argminIdx (((vProj c.image).drop (c.w / 3)).take
            (2 * c.w / 3 - c.w / 3)))
          omega
        · show c.x + (c.w / 3 + argminIdx (((vProj c.image).drop (c.w / 3)).take
              (2 * c.w / 3 - c.w / 3))) +
            (c.w - (c.w / 3 + argminIdx (((vProj c.image).drop (c.w / 3)).take
              (2 * c.w / 3 - c.w / 3)))) ≤ c.x + c.w
          omega
      · simp at h'
  all_goals
    rcases List.mem_cons.mp hd with h | h
    · rw [h]; exact ⟨rfl, rfl, Nat.le_refl _, Nat.le_refl _⟩
    · simp at h

theorem split_chars_bounds (cs : List CharData) :
    ∀ d ∈ split_touching_characters cs, ∃ c ∈ cs,
      d.y = c.y ∧ d.h = c.h ∧ c.x ≤ d.x ∧ d.x + d.w ≤ c.x + c.w := by
  intro d hd
  simp only [split_touching_characters] at hd
  rcases List.mem_flatten.mp hd with ⟨l, hl, hdl⟩
  rcases List.mem_map.mp hl with ⟨c, hc, rfl⟩
  exact ⟨c, hc, splitOne_bounds c d hdl⟩

theorem segLine_fields (lineImg : Image) (y1 li cid : ℕ) :
    ∀ gl ∈ segLine lineImg y1 li cid,
      ∃ c ∈ split_touching_characters (sortLe (fun a b => decide (a.x ≤ b.x)) (lineChars lineImg)),
        gl.x = c.x ∧ gl.y = y1 + c.y ∧ gl.width = c.w ∧ gl.height = c.h := by
  intro gl hgl
  simp only [segLine] at hgl
  rcases List.mem_map.mp hgl with ⟨p, hp, rfl⟩
  exact ⟨p.2, snd_mem_of_mem_enum hp, rfl, rfl, rfl, rfl⟩

theorem segGo_origin (g : Image) :
    ∀ (lines : List (ℕ × ℕ)) (li cid : ℕ) (gl : Glyph), gl ∈ segGo g lines li cid →
      ∃ y1 y2, (y1, y2) ∈ lines ∧
        ∃ c ∈ split_touching_characters (sortLe (fun a b => decide (a.x ≤ b.x))
            (lineChars (cropRows g y1 y2))),
          gl.x = c.x ∧ gl.y = y1 + c.y ∧ gl.width = c.w ∧ gl.height = c.h := by
  intro lines
  induction lines with
  | nil => intro li cid gl hgl; simp [segGo] at hgl
  | cons pr rest ih =>
    intro li cid gl hgl
    rcases pr with ⟨y1, y2⟩
    simp only [segGo] at hgl
    rcases List.mem_append.mp hgl with h | h
    · rcases segLine_fields _ y1 li cid gl h with ⟨c, hc, hf⟩
      exact ⟨y1, y2, List.mem_cons_self _ _, c, hc, hf⟩
    · rcases ih _ _ gl h with ⟨a, b, hab, hrest⟩
      exact ⟨a, b, List.mem_cons_of_mem _ hab, hrest⟩

theorem cropRows_rowlen (g : Image) (W H a b : ℕ) (hr : IsRect g W H) :
    ∀ row ∈ cropRows g a b, row.length = W := by
  intro row h
  exact hr.2 row (List.mem_of_mem_drop (List.mem_of_mem_take h))

theorem cropRows_length (g : Image) (a b : ℕ) : (cropRows g a b).length ≤ g.length - a := by
  unfold cropRows
  rw [List.length_take, List.length_drop]
  omega

theorem saveGo_mem :
    ∀ (l : List CharF) (cnt : ℕ) (m : MetaRec), m ∈ saveGo l cnt → ∃ c ∈ l, m = mkMetaF c := by
  intro l
  induction l with
  | nil => intro cnt m hm; simp [saveGo] at hm
  | cons c rest ih =>
    intro cnt m hm
    simp only [saveGo] at hm
    split_ifs at hm with h1 h2
    · rcases ih cnt m hm with ⟨c0, hc0, rfl⟩
      exact ⟨c0, List.mem_cons_of_mem c hc0, rfl⟩
    · rcases List.mem_cons.mp hm with h | h
      · exact ⟨c, List.mem_cons_self c rest, h⟩
      · simp at h
    · rcases List.mem_cons.mp hm with h | h
      · exact ⟨c, List.mem_cons_self c rest, h⟩
      · rcases ih (cnt + 1) m h with ⟨c0, hc0, rfl⟩
        exact ⟨c0, List.mem_cons_of_mem c hc0, rfl⟩

theorem extGo_origin (g : Image) :
    ∀ (lines : List (ℕ × ℕ)) (li cid : ℕ) (c : CharF), c ∈ extGo g lines li cid →
      ∃ y1 y2, (y1, y2) ∈ lines ∧
        ∃ c0 ∈ extract_line_characters (cropRows g y1 y2),
          c.x = c0.x ∧ c.globalY = y1 + c0.y ∧ c.w = c0.w ∧ c.h = c0.h := by
  intro lines
  induction lines with
  | nil => intro li cid c hc; simp [extGo] at hc
  | cons pr rest ih =>
    intro li cid c hc
    rcases pr with ⟨y1, y2⟩
    simp only [extGo] at hc
    rcases List.mem_append.mp hc with h | h
    · rcases List.mem_map.mp h with ⟨p, hp, rfl⟩
      exact ⟨y1, y2, List.mem_cons_self _ _, p.2, snd_mem_of_mem_enum hp, rfl, rfl, rfl, rfl⟩
    · rcases ih _ _ c h with ⟨a, b, hab, hrest⟩
      exact ⟨a, b, List.mem_cons_of_mem _ hab, hrest⟩

/-- Claim C1: every glyph record the extraction pipelines emit has its
bounding box fully inside the pixel extent of the page.  All coordinates are
naturals (cv2 component statistics are nonnegative), so `0 <= x` and
`0 <= y` hold by typing; the theorem states the two nontrivial bounds
`x + width <= page_width` and `y + height <= page_height`, where `y` is
the line offset plus the component y inside the line crop.  First part:
improved_extraction (detect_text_regions, segment_characters_advanced,
including the touching-character splitter and the quality filter); second
part: fix_character_extraction (find_text_lines, extract_characters,
save_characters metadata records). -/
theorem C1_bbox_within_page :
    (∀ (S : List ℚ → List ℚ) (g : Image) (W H : ℕ), IsRect g W H →
        ∀ gls, improvedPage S g = some gls →
          ∀ gl ∈ gls, gl.x + gl.width ≤ W ∧ gl.y + gl.height ≤ H) ∧
    (∀ (S : List ℚ → List ℚ) (g : Image) (W H : ℕ), IsRect g W H →
        ∀ m ∈ fixPage S g, m.bbx + m.bbw ≤ W ∧ m.bby + m.bbh ≤ H) := by
  constructor
  · intro S g W H hr gls hpage gl hgl
    have hseg : ∃ lines, detect_text_regions S g = some lines ∧
        segment_characters_advanced g lines = gls := by
      unfold improvedPage at hpage
      cases hd : detect_text_regions S g with
      | none => rw [hd] at hpage; exact absurd hpage (by simp)
      | some lines =>
        rw [hd] at hpage
        exact ⟨lines, rfl, Option.some.inj hpage⟩
    rcases hseg with ⟨lines, _, rfl⟩
    have hgo : gl ∈ segGo g lines 0 0 := (List.mem_filter.mp hgl).1
    rcases segGo_origin g lines 0 0 gl hgo with ⟨y1, y2, _, c, hc, hx, hy, hw, hh2⟩
    rcases split_chars_bounds _ c hc with ⟨c0, hc0, hcy, hch, _, hcxw⟩
    have hc0lc : c0 ∈ lineChars (cropRows g y1 y2) := (mem_sortLe _ _ _).mp hc0
    have hb := lineChars_bounds (cropRows g y1 y2) W (cropRows_rowlen g W H y1 y2 hr) c0 hc0lc
    have hlen := cropRows_length g y1 y2
    have hH : g.length = H := hr.1
    constructor
    · rw [hx, hw]; omega
    · rw [hy, hh2, hcy, hch]; omega
  · intro S g W H hr m hm
    unfold fixPage save_characters at hm
    rcases saveGo_mem _ 0 m hm with ⟨c, hc, rfl⟩
    have hc2 : c ∈ extract_characters S g := (mem_sortLe _ _ _).mp hc
    unfold extract_characters at hc2
    rcases extGo_origin g _ 0 0 c hc2 with ⟨y1, y2, _, c0, hc0, hx, hy, hw, hh2⟩
    have hb := extract_line_bounds (cropRows g y1 y2) W (cropRows_rowlen g W H y1 y2 hr) c0 hc0
    have hlen := cropRows_length g y1 y2
    have hH : g.length = H := hr.1
    constructor
    · show c.x + c.w ≤ W
      rw [hx, hw]; omega
    · show c.globalY + c.h ≤ H
      rw [hy, hh2]; omega

/-- Witness for C1 at a concrete 50-row, 20-column mask processed with the
identity smoothing; the improved page succeeds (the option is some) and
every glyph of both pipelines stays inside the 20-by-50 extent. -/
theorem C1_witness :
    IsRect testImg 20 50 ∧
      ((improvedPage (fun l => l) testImg).getD []).map
          (fun gl => (gl.x, gl.y, gl.width, gl.height)) = [(6, 5, 8, 20)] ∧
      (fixPage (fun l => l) testImg).map
          (fun m => (m.bbx, m.bby, m.bbw, m.bbh)) = [(6, 5, 8, 20)] ∧
      (∀ gl ∈ (improvedPage (fun l => l) testImg).getD [],
        gl.x + gl.width ≤ 20 ∧ gl.y + gl.height ≤ 50) ∧
      (∀ m ∈ fixPage (fun l => l) testImg, m.bbx + m.bbw ≤ 20 ∧ m.bby + m.bbh ≤ 50) := by
  have hrect : IsRect testImg 20 50 := by decide
  have hsome : (improvedPage (fun l => l) testImg).isSome = true := by decide
  refine ⟨hrect, by decide, by decide, ?_,
    C1_bbox_within_page.2 (fun l => l) testImg 20 50 hrect⟩
  intro gl hgl
  have hpage : improvedPage (fun l => l) testImg =
      some ((improvedPage (fun l => l) testImg).getD []) := by
    rcases h : improvedPage (fun l => l) testImg with _ | gls
    · rw [h] at hsome; simp at hsome
    · rfl
  exact C1_bbox_within_page.1 (fun l => l) testImg 20 50 hrect _ hpage gl hgl
